import Mathlib

/-!
Verification of the xxhtools repository (xdiff.py, xxh.py, file_utils.py).

Shallow embedding conventions:
* Python strings are sequences of characters, embedded as `List Char` (`Str`).
* Python `dict` preserves insertion order; assignment `d[k] = v` updates the
  existing slot in place or appends a fresh binding.  We embed dicts as
  association lists with `dictFind` / `dictInsert` realising exactly those
  semantics.
* Python `set.add` is embedded as `pyAdd` (append when absent); the claims
  settled here are membership-level, so the unspecified iteration order of a
  CPython set is irrelevant.
* Filesystem primitives (`os.path.abspath`, `os.walk`, `os.access`, file
  contents) are external collaborators; they enter the embedding as explicit
  function parameters, never as axioms.
* The xxhash primitive (`xxh3_64`) is an external opaque collaborator (spec §1):
  its streaming state is the sequence of bytes fed so far, `update` appends a
  chunk, and the final 64-bit value is an uninterpreted parameter
  `xxh3val : List Nat → Nat` reduced mod 2^64 and rendered in hex, which is the
  documented interface of an incremental hash.
-/

/-- A Python string: a finite sequence of characters. -/
abbrev Str := List Char


/-- A Python dict from strings to `α`, as an insertion-ordered association list. -/
abbrev Dict (α : Type) := List (Str × α)


/-- Python `k in d` / `d[k]` lookup: first (and, for a genuine dict, only)
binding of `k`. -/
def dictFind {α : Type} : Dict α → Str → Option α
  | [], _ => none
  | kv :: rest, q => if kv.1 = q then some kv.2 else dictFind rest q


/-- Python `d[k] = v`: replace the binding in place if `k` is present,
otherwise append a new binding (insertion order semantics of dict). -/
def dictInsert {α : Type} : Dict α → Str → α → Dict α
  | [], k, v => [(k, v)]
  | kv :: rest, k, v => if kv.1 = k then (k, v) :: rest else kv :: dictInsert rest k v


/-- The key sequence of a dict. -/
def dictKeys {α : Type} (d : Dict α) : List Str :=
  d.map (fun kv => kv.1)


/-- Python `s.add(x)` on a set represented by its insertion order. -/
def pyAdd (s : List Str) (x : Str) : List Str :=
  if x ∈ s then s else s ++ [x]


/-- Python `file.startswith(p)`: `p` is a character-for-character prefix of
`file` (plain string prefix match). -/
def startswith : Str → Str → Bool
  | _, [] => true
  | [], _ :: _ => false
  | c :: s, d :: p => c = d && startswith s p


/-! ## xdiff.py — `standard_output` classification (claims C1, C2)

`standard_output` (xdiff.py lines 198-244) first resolves both paths with
`os.path.abspath`, then scans every `(hash, files)` item of `hash_dict`,
collecting `hash1` / `hash2` as the sets of hashes having a file whose string
starts with the respective absolute path, and finally splits them into
`common`, `exclusive1`, `exclusive2` dictionaries. -/
/-- One iteration of the inner `for file in files` loop of `standard_output`:
test `file.startswith(abs_path1)` / `(abs_path2)` and add the hash to the
respective set. -/
def scanStep (p1 p2 k : Str) (a : List Str × List Str) (f : Str) : List Str × List Str :=
  (if startswith f p1 then pyAdd a.1 k else a.1,
   if startswith f p2 then pyAdd a.2 k else a.2)


/-- The double loop of `standard_output` building `hash1` and `hash2`. -/
def scanHashes (hd : Dict (List Str)) (p1 p2 : Str) : List Str × List Str :=
  hd.foldl (fun a kv => kv.2.foldl (scanStep p1 p2 kv.1) a) ([], [])


/-- One iteration of `for hash in hash1`: route the hash (with its full path
list `hash_dict[hash]`) into `common` or `exclusive1`. -/
def classifyStep (hd : Dict (List Str)) (s2 : List Str) (ce : Dict (List Str) × Dict (List Str))
    (h : Str) : Dict (List Str) × Dict (List Str) :=
  if h ∈ s2 then (dictInsert ce.1 h ((dictFind hd h).getD []), ce.2)
  else (ce.1, dictInsert ce.2 h ((dictFind hd h).getD []))


/-- One iteration of `for hash in hash2`: hashes not in `hash1` go to
`exclusive2`. -/
def exclusive2Step (hd : Dict (List Str)) (s1 : List Str) (e : Dict (List Str))
    (h : Str) : Dict (List Str) :=
  if h ∈ s1 then e else dictInsert e h ((dictFind hd h).getD [])


/-- The classification computed by `standard_output` (xdiff.py 218-238),
returning `(common, exclusive1, exclusive2)`.  `abspath` embeds
`os.path.abspath`.  (`hash_dict[hash]` cannot fail there because the scanned
hashes are keys of `hash_dict`; `.getD []` totalises the lookup.) -/
def standard_output_classify (abspath : Str → Str) (hd : Dict (List Str)) (path1 path2 : Str) :
    Dict (List Str) × Dict (List Str) × Dict (List Str) :=
  let p1 := abspath path1
  let p2 := abspath path2
  let hs := scanHashes hd p1 p2
  let ce := hs.1.foldl (classifyStep hd hs.2) ([], [])
  (ce.1, ce.2, hs.2.foldl (exclusive2Step hd hs.1) [])


/-- Spec-side reading of "the set of digests having at least one associated
path whose string starts with the (absolute) root": used to compare the code's
computation against the claim's wording. -/
def specRootHashes (hd : Dict (List Str)) (root h : Str) : Prop :=
  ∃ kv ∈ hd, kv.1 = h ∧ ∃ f ∈ kv.2, ∃ t, f = root ++ t


/-! ## xdiff.py — `print_path_comparison` verbose summary (claim C3)

Lines 139-151: after printing the three dictionaries, the verbose mode walks an
if/elif chain over the truthiness (non-emptiness) of `exclusive1`,
`exclusive2` and `common` and prints exactly one closing sentence. -/
/-- The five closing sentences of `print_path_comparison`.  `path1` is root A,
`path2` is root B, so e.g. `allFilesOf2In1` renders as
"All files in '{path2}' are in '{path1}'", i.e. all files in B are in A. -/
inductive SummaryMsg : Type
  | allFilesOf2In1
  | allFilesOf1In2
  | allBothWays
  | someDiffer
  | completelyDifferent
deriving DecidableEq


/-- The if/elif chain of `print_path_comparison` (xdiff.py 140-151): Python
truthiness of a dict is its non-emptiness. -/
def summary_message (exclusive1 exclusive2 common : Dict (List Str)) : SummaryMsg :=
  if exclusive1 ≠ [] ∧ exclusive2 = [] then .allFilesOf2In1
  else if exclusive2 ≠ [] ∧ exclusive1 = [] then .allFilesOf1In2
  else if exclusive1 = [] ∧ exclusive2 = [] then .allBothWays
  else if common ≠ [] then .someDiffer
  else .completelyDifferent


/-- The cache-conscious hash of one file (xdiff.py 42-45 and 66-69): take the
cached digest of the absolute path if present, otherwise call `fu.xxh`. -/
def hashOfFile (cache : Dict Str) (xxh : Str → Str) (a : Str) : Str :=
  match dictFind cache a with
  | some h => h
  | none => xxh a


/-- Embedding of `add_to_list_dict` (xdiff.py 7-16): append `value` to the bucket of `key`
unless already present; create the bucket if the key is new. -/
def add_to_list_dict (d : Dict (List Str)) (key value : Str) : Dict (List Str) :=
  match dictFind d key with
  | some vs => if value ∈ vs then d else dictInsert d key (vs ++ [value])
  | none => d ++ [(key, [value])]


/-- The bucket insertion of `files_hash_dict` (xdiff.py 70-73): append to the
bucket unconditionally (no duplicate check), create the bucket if new. -/
def files_insert (d : Dict (List Str)) (key value : Str) : Dict (List Str) :=
  match dictFind d key with
  | some vs => dictInsert d key (vs ++ [value])
  | none => d ++ [(key, [value])]


/-- Embedding of `dirs_hash_dict` (xdiff.py 19-47) over the readable files of the two
directories, in traversal order. -/
def dirs_hash_dict (cache : Dict Str) (xxh abspath : Str → Str)
    (files : List Str) : Dict (List Str) :=
  files.foldl (fun d f => add_to_list_dict d (hashOfFile cache xxh (abspath f)) (abspath f)) []


/-- Embedding of `files_hash_dict` (xdiff.py 50-74) over its two file arguments. -/
def files_hash_dict (cache : Dict Str) (xxh abspath : Str → Str)
    (file1 file2 : Str) : Dict (List Str) :=
  [file1, file2].foldl (fun d f => files_insert d (hashOfFile cache xxh (abspath f)) (abspath f)) []


/-- Claim C4's first invariant: a path appears under at most one digest key. -/
def indexPathsOnce (d : Dict (List Str)) : Prop :=
  ∀ kv1 ∈ d, ∀ kv2 ∈ d, ∀ p : Str, p ∈ kv1.2 → p ∈ kv2.2 → kv1.1 = kv2.1


/-- Claim C4's second invariant: no bucket holds the same path twice. -/
def indexValuesNodup (d : Dict (List Str)) : Prop :=
  ∀ kv ∈ d, kv.2.Nodup


/-- Path `p` is recorded in the index under digest key `k`. -/
def hasPath (d : Dict (List Str)) (k p : Str) : Prop :=
  ∃ vs, dictFind d k = some vs ∧ p ∈ vs


/-- Internal strengthening: keys are distinct, buckets are duplicate-free, and
every bucket member hashes (via `hfun`) to its key. -/
def goodIndex (hfun : Str → Str) (d : Dict (List Str)) : Prop :=
  (dictKeys d).Nodup ∧ ∀ kv ∈ d, kv.2.Nodup ∧ ∀ p ∈ kv.2, hfun p = kv.1


/-- The loop body of `dirs_hash_dict` (xdiff.py 41-46) instrumented with the
list of absolute paths for which `fu.xxh` is invoked (the cache-miss branch). -/
def dirs_trace_step (cache : Dict Str) (xxh abspath : Str → Str)
    (dt : Dict (List Str) × List Str) (f : Str) : Dict (List Str) × List Str :=
  match dictFind cache (abspath f) with
  | some h => (add_to_list_dict dt.1 h (abspath f), dt.2)
  | none => (add_to_list_dict dt.1 (xxh (abspath f)) (abspath f), dt.2 ++ [abspath f])


/-- Instrumented `dirs_hash_dict`, with its `fu.xxh` invocations recorded. -/
def dirs_hash_dict_trace (cache : Dict Str) (xxh abspath : Str → Str)
    (files : List Str) : Dict (List Str) × List Str :=
  files.foldl (dirs_trace_step cache xxh abspath) ([], [])


/-- The loop body of `files_hash_dict` (xdiff.py 65-73) instrumented with the
list of absolute paths for which `fu.xxh` is invoked. -/
def files_trace_step (cache : Dict Str) (xxh abspath : Str → Str)
    (dt : Dict (List Str) × List Str) (f : Str) : Dict (List Str) × List Str :=
  match dictFind cache (abspath f) with
  | some h => (files_insert dt.1 h (abspath f), dt.2)
  | none => (files_insert dt.1 (xxh (abspath f)) (abspath f), dt.2 ++ [abspath f])


/-- Instrumented `files_hash_dict`, with its `fu.xxh` invocations recorded. -/
def files_hash_dict_trace (cache : Dict Str) (xxh abspath : Str → Str)
    (file1 file2 : Str) : Dict (List Str) × List Str :=
  [file1, file2].foldl (files_trace_step cache xxh abspath) ([], [])


/-! ## xdiff.py — `get_hashes_from_cache` (claim C6)

Lines 77-95 iterate over the lines of the cache file and match each against
`RE_LINE = ^(?P<hash>[0-9a-f]{16}) {2}(?P<path>.+)$` with `re.match`.  A line
produced by Python file iteration carries its trailing newline; `$` matches
just before a sole trailing newline and `.` never matches a newline, so a raw
line is accepted exactly when, after stripping one trailing newline, it is
16 lowercase-hex characters, two spaces, and a non-empty newline-free rest.
Accepted lines assign `file_dict[abspath(path)] = hash`, so for repeated paths
the last accepted line wins. -/
/-- The `[0-9a-f]` character class of `RE_LINE`. -/
def isHexLower (c : Char) : Bool :=
  (('0' ≤ c) && (c ≤ '9')) || (('a' ≤ c) && (c ≤ 'f'))


/-- The effect of `$` under `re.match` on a raw iterated line: one trailing
newline, when present, is immaterial to the match. -/
def stripNl (line : Str) : Str :=
  if line.getLast? = some '\n' then line.dropLast else line


/-- Embedding of `re.match(RE_LINE, line)` on one raw line, returning the `hash` and `path`
groups. -/
def matchCacheLine (line : Str) : Option (Str × Str) :=
  if ((stripNl line).take 16).length = 16 ∧
      ((stripNl line).take 16).all isHexLower = true ∧
      ((stripNl line).drop 16).take 2 = [' ', ' '] ∧
      (stripNl line).drop 18 ≠ [] ∧ '\n' ∉ (stripNl line).drop 18
  then some ((stripNl line).take 16, (stripNl line).drop 18) else none


/-- Embedding of `get_hashes_from_cache` (xdiff.py 77-95) over the file's lines in order:
every accepted line updates the dict at the absolute path; others are
silently skipped. -/
def get_hashes_from_cache (abspath : Str → Str) (lines : List Str) : Dict Str :=
  lines.foldl (fun d line =>
    match matchCacheLine line with
    | some hp => dictInsert d (abspath hp.2) hp.1
    | none => d) []


/-- The claim's description of the lookup result: the digest of the last
accepted line (in top-to-bottom order) whose absolute path is the queried
path. -/
def lastDigestFor (abspath : Str → Str) (lines : List Str) (q : Str) : Option Str :=
  match lines with
  | [] => none
  | l :: rest =>
    match lastDigestFor abspath rest q with
    | some h => some h
    | none =>
      match matchCacheLine l with
      | some hp => if abspath hp.2 = q then some hp.1 else none
      | none => none


def hexDigestEx : Str :=
  ['d', 'e', 'a', 'd', 'b', 'e', 'e', 'f',
   'd', 'e', 'a', 'd', 'b', 'e', 'e', 'f']


def hexLineEx : Str := hexDigestEx ++ [' ', ' ', 'p']


/-! ## xxh.py / file_utils.py — manifest building (claims C7, C10)

`file_output` (xxh.py 8-45) loads the previously hashed paths from the
manifest with `previously_hashed_files` (62-74), resolves the roots with
`fu.paths_info` (file_utils.py 76-104) passing that set as `exclude_set`,
and appends one `<xxh(file)>  <abspath(file)>` line per discovered file not
in the hashed set.  The filesystem is an explicit record of external
collaborators; the manifest is its list of lines (newlines stripped); the
readable/appendable guards of the happy path are assumed to hold. -/
/-- Python `str.strip()` whitespace class (the ASCII part relevant here). -/
def isPySpace (c : Char) : Bool :=
  c = ' ' || c = '\t' || c = '\n' || c = '\r' || c = '\x0b' || c = '\x0c'


/-- Python `s.strip()`: drop leading and trailing whitespace. -/
def pyStrip (s : Str) : Str :=
  ((s.dropWhile isPySpace).reverse.dropWhile isPySpace).reverse


/-- Embedding of `re.match(RE_HASH, line)` of xxh.py 67: `^[0-9a-f]{16}  ` as a prefix
test (no end anchor). -/
def matchManifestHashLine (line : Str) : Bool :=
  decide ((line.take 16).length = 16) && (line.take 16).all isHexLower &&
    decide ((line.drop 16).take 2 = [' ', ' '])


/-- Embedding of `previously_hashed_files` (xxh.py 62-74): the set of `line[16:].strip()`
payloads of the matching manifest lines. -/
def previously_hashed_files (lines : List Str) : List Str :=
  lines.foldl (fun s line =>
    if matchManifestHashLine line then pyAdd s (pyStrip (line.drop 16)) else s) []


/-- The filesystem a run observes: the `os` collaborators of xxh.py and
file_utils.py as explicit functions, constant during the run.  `dirFiles`
is `all_files_in_directory` for the run's `is_recursive` flag. -/
structure FS where
  isReadablePath : Str → Bool
  isFile : Str → Bool
  isReadableFile : Str → Bool
  dirFiles : Str → List Str
  size : Str → Nat
  abspath : Str → Str
  xxh : Str → Str


/-- The result dictionary of `paths_info`. -/
structure PathsInfo where
  files : List Str
  file_count : Nat
  total_bytes : Nat
deriving DecidableEq


/-- One iteration of the `for path in paths` loop of `paths_info`
(file_utils.py 88-103): unreadable roots are skipped; a file root is added
unconditionally; a directory root contributes its readable files that are
not in `exclude_set`. -/
def paths_info_step (fs : FS) (exclude : List Str) (info : PathsInfo) (path : Str) : PathsInfo :=
  if fs.isReadablePath path = false then info
  else if fs.isFile path then
    { files := pyAdd info.files path,
      file_count := info.file_count + 1,
      total_bytes := info.total_bytes + fs.size path }
  else
    (fs.dirFiles path).foldl (fun i f =>
      if fs.isReadableFile f = false ∨ f ∈ exclude then i
      else { files := pyAdd i.files f,
             file_count := i.file_count + 1,
             total_bytes := i.total_bytes + fs.size f }) info


/-- Embedding of `paths_info` (file_utils.py 76-104). -/
def paths_info (fs : FS) (roots : List Str) (exclude : List Str) : PathsInfo :=
  roots.foldl (paths_info_step fs exclude) ⟨[], 0, 0⟩


/-- Embedding of `file_output` (xxh.py 8-45): the manifest after one run over `roots`. -/
def file_output (fs : FS) (roots : List Str) (manifest : List Str) : List Str :=
  manifest ++
    ((paths_info fs roots (previously_hashed_files manifest)).files.filterMap
      (fun f => if f ∈ previously_hashed_files manifest then none
                else some (fs.xxh f ++ ' ' :: ' ' :: fs.abspath f)))


/-- The filesystem of the C7 counterexample: one readable regular file known
by the relative name "f", whose absolute path is "/c/f". -/
def fsRel : FS :=
  { isReadablePath := fun p => decide (p = ['f']),
    isFile := fun p => decide (p = ['f']),
    isReadableFile := fun p => decide (p = ['f']),
    dirFiles := fun _ => [],
    size := fun _ => 0,
    abspath := fun p => if p = ['f'] then ['/', 'c', '/', 'f'] else p,
    xxh := fun _ => hexDigestEx }


/-- A filesystem where every path is its own absolute form: one readable
regular file "/f". -/
def fsAbs : FS :=
  { isReadablePath := fun p => decide (p = ['/', 'f']),
    isFile := fun p => decide (p = ['/', 'f']),
    isReadableFile := fun p => decide (p = ['/', 'f']),
    dirFiles := fun _ => [],
    size := fun _ => 1,
    abspath := fun p => p,
    xxh := fun _ => hexDigestEx }


/-! ## file_utils.py — `xxh` (claims C8, C9)

`fu.xxh` (file_utils.py 140-152) re-checks `is_readable_file` at call time,
then reads the file through `iter(lambda: f.read(1024), b"")`, feeding each
chunk to an `xxh3_64` streaming object, and returns `hexdigest()`; on a
failed check it prints an error and returns the empty string.  The hash
primitive is the opaque external collaborator of spec §1: the streaming
state is the byte sequence fed so far (`update` appends a chunk), and the
finalizer is an uninterpreted 64-bit valuation `xxh3val` rendered as 16
lowercase hex digits — exactly the `hexdigest()` of a 64-bit hash. -/
/-- The chunk sequence produced by `iter(lambda: f.read(1024), b"")`:
successive 1024-byte reads until the empty read stops the iterator. -/
def readChunks (content : List Nat) : List (List Nat) :=
  if h : content = [] then []
  else content.take 1024 :: readChunks (content.drop 1024)
termination_by content.length
decreasing_by
  simp only [List.length_drop]
  have hpos : 0 < content.length := List.length_pos.mpr h
  omega


/-- The streaming state after the update loop: the concatenation of the fed
chunks, in order. -/
def feedChunks (chunks : List (List Nat)) : List Nat :=
  chunks.foldl (fun s c => s ++ c) []


/-- One lowercase hex digit ('0'..'9', 'a'..'f'). -/
def hexChar (n : Nat) : Char :=
  if n < 10 then Char.ofNat (48 + n) else Char.ofNat (87 + n)


/-- The `hexdigest()` rendering of a 64-bit value: 16 lowercase hex characters,
most significant first. -/
def toHex16 (n : Nat) : Str :=
  (List.range 16).map (fun i => hexChar (n / 16 ^ (15 - i) % 16))


/-- The digest of a fed byte sequence, for the uninterpreted 64-bit hash
valuation `xxh3val` (reduced mod 2^64 as a 64-bit hash state is). -/
def hexdigest (xxh3val : List Nat → Nat) (fed : List Nat) : Str :=
  toHex16 (xxh3val fed % 2 ^ 64)


/-- The chunked computation of `fu.xxh` over the file content: the streaming
loop of file_utils.py 146-149. -/
def xxh_chunked (xxh3val : List Nat → Nat) (content : List Nat) : Str :=
  hexdigest xxh3val (feedChunks (readChunks content))


/-- Hashing the whole byte content fed in one step. -/
def xxh_whole (xxh3val : List Nat → Nat) (content : List Nat) : Str :=
  hexdigest xxh3val content


/-- Embedding of `fu.xxh` (file_utils.py 140-152): `is_readable_file` re-check at call
time; on failure an error is printed and the empty string is returned. -/
def fu_xxh (isReadable : Str → Bool) (fileContent : Str → List Nat)
    (xxh3val : List Nat → Nat) (file_name : Str) : Str :=
  if isReadable file_name then xxh_chunked xxh3val (fileContent file_name) else []


/-! ## Theorems -/

theorem mem_pyAdd {s : List Str} {x y : Str} : x ∈ pyAdd s y ↔ x ∈ s ∨ x = y := by
  unfold pyAdd
  by_cases h : y ∈ s
  · simp only [h, if_true]
    constructor
    · exact fun hx => Or.inl hx
    · rintro (hx | rfl) <;> assumption
  · simp [h]


theorem startswith_iff {s p : Str} : startswith s p = true ↔ ∃ t, s = p ++ t := by
  induction p generalizing s with
  | nil => simp [startswith]
  | cons d p ih =>
    cases s with
    | nil => simp [startswith]
    | cons c s =>
      simp only [startswith, Bool.and_eq_true, decide_eq_true_eq, ih, List.cons_append,
        List.cons.injEq]
      constructor
      · rintro ⟨rfl, t, rfl⟩; exact ⟨t, rfl, rfl⟩
      · rintro ⟨t, rfl, rfl⟩; exact ⟨rfl, t, rfl⟩


theorem dictFind_dictInsert {α : Type} (d : Dict α) (k : Str) (v : α) (q : Str) :
    dictFind (dictInsert d k v) q = if k = q then some v else dictFind d q := by
  induction d with
  | nil =>
    by_cases h : k = q <;> simp [dictInsert, dictFind, h]
  | cons kv rest ih =>
    by_cases hk : kv.1 = k
    · by_cases hq : k = q <;> simp [dictInsert, dictFind, hk, hq]
    · simp only [dictInsert, hk, if_false]
      by_cases hq : kv.1 = q
      · have : ¬ k = q := fun h => hk (h ▸ hq)
        simp [dictFind, hq, this]
      · simp [dictFind, hq, ih]


theorem dictKeys_cons {α : Type} (kv : Str × α) (d : Dict α) :
    dictKeys (kv :: d) = kv.1 :: dictKeys d := rfl


theorem mem_dictKeys_dictInsert {α : Type} {d : Dict α} {k : Str} {v : α} {q : Str} :
    q ∈ dictKeys (dictInsert d k v) ↔ q ∈ dictKeys d ∨ q = k := by
  induction d with
  | nil => simp [dictInsert, dictKeys]
  | cons kv rest ih =>
    by_cases hk : kv.1 = k
    · subst hk
      have h1 : dictInsert (kv :: rest) kv.1 v = (kv.1, v) :: rest := by
        simp [dictInsert]
      rw [h1, dictKeys_cons, dictKeys_cons]
      simp only [List.mem_cons]
      tauto
    · have h1 : dictInsert (kv :: rest) k v = kv :: dictInsert rest k v := by
        simp [dictInsert, hk]
      rw [h1, dictKeys_cons, dictKeys_cons]
      simp only [List.mem_cons, ih]
      tauto


theorem mem_scan_inner_fst (p1 p2 k : Str) (fls : List Str) (a : List Str × List Str) (h : Str) :
    h ∈ (fls.foldl (scanStep p1 p2 k) a).1 ↔
      h ∈ a.1 ∨ (h = k ∧ ∃ f ∈ fls, startswith f p1 = true) := by
  induction fls generalizing a with
  | nil => simp
  | cons f fls ih =>
    rw [List.foldl_cons, ih]
    simp only [scanStep]
    by_cases hf : startswith f p1
    · simp only [hf, if_true, mem_pyAdd]
      constructor
      · rintro ((h1 | rfl) | ⟨rfl, g, hg, hgp⟩)
        · exact Or.inl h1
        · exact Or.inr ⟨rfl, f, by simp [hf]⟩
        · exact Or.inr ⟨rfl, g, by simp [hg, hgp]⟩
      · rintro (h1 | ⟨rfl, g, hg, hgp⟩)
        · exact Or.inl (Or.inl h1)
        · rcases List.mem_cons.mp hg with rfl | hg'
          · exact Or.inl (Or.inr rfl)
          · exact Or.inr ⟨rfl, g, hg', hgp⟩
    · simp only [hf, if_false]
      constructor
      · rintro (h1 | ⟨rfl, g, hg, hgp⟩)
        · exact Or.inl h1
        · exact Or.inr ⟨rfl, g, by simp [hg, hgp]⟩
      · rintro (h1 | ⟨rfl, g, hg, hgp⟩)
        · exact Or.inl h1
        · rcases List.mem_cons.mp hg with rfl | hg'
          · exact absurd hgp (by simpa using hf)
          · exact Or.inr ⟨rfl, g, hg', hgp⟩


theorem mem_scan_inner_snd (p1 p2 k : Str) (fls : List Str) (a : List Str × List Str) (h : Str) :
    h ∈ (fls.foldl (scanStep p1 p2 k) a).2 ↔
      h ∈ a.2 ∨ (h = k ∧ ∃ f ∈ fls, startswith f p2 = true) := by
  induction fls generalizing a with
  | nil => simp
  | cons f fls ih =>
    rw [List.foldl_cons, ih]
    simp only [scanStep]
    by_cases hf : startswith f p2
    · simp only [hf, if_true, mem_pyAdd]
      constructor
      · rintro ((h1 | rfl) | ⟨rfl, g, hg, hgp⟩)
        · exact Or.inl h1
        · exact Or.inr ⟨rfl, f, by simp [hf]⟩
        · exact Or.inr ⟨rfl, g, by simp [hg, hgp]⟩
      · rintro (h1 | ⟨rfl, g, hg, hgp⟩)
        · exact Or.inl (Or.inl h1)
        · rcases List.mem_cons.mp hg with rfl | hg'
          · exact Or.inl (Or.inr rfl)
          · exact Or.inr ⟨rfl, g, hg', hgp⟩
    · simp only [hf, if_false]
      constructor
      · rintro (h1 | ⟨rfl, g, hg, hgp⟩)
        · exact Or.inl h1
        · exact Or.inr ⟨rfl, g, by simp [hg, hgp]⟩
      · rintro (h1 | ⟨rfl, g, hg, hgp⟩)
        · exact Or.inl h1
        · rcases List.mem_cons.mp hg with rfl | hg'
          · exact absurd hgp (by simpa using hf)
          · exact Or.inr ⟨rfl, g, hg', hgp⟩


theorem mem_scanHashes_fst (hd : Dict (List Str)) (p1 p2 h : Str) :
    h ∈ (scanHashes hd p1 p2).1 ↔
      ∃ kv ∈ hd, kv.1 = h ∧ ∃ f ∈ kv.2, startswith f p1 = true := by
  have gen : ∀ (l : Dict (List Str)) (a : List Str × List Str),
      h ∈ (l.foldl (fun a kv => kv.2.foldl (scanStep p1 p2 kv.1) a) a).1 ↔
        h ∈ a.1 ∨ ∃ kv ∈ l, kv.1 = h ∧ ∃ f ∈ kv.2, startswith f p1 = true := by
    intro l
    induction l with
    | nil => simp
    | cons kv rest ih =>
      intro a
      rw [List.foldl_cons, ih, mem_scan_inner_fst]
      constructor
      · rintro ((h1 | ⟨rfl, g, hg, hgp⟩) | ⟨kw, hkw, rfl, g, hg, hgp⟩)
        · exact Or.inl h1
        · exact Or.inr ⟨kv, List.mem_cons_self kv rest, rfl, g, hg, hgp⟩
        · exact Or.inr ⟨kw, List.mem_cons_of_mem kv hkw, rfl, g, hg, hgp⟩
      · rintro (h1 | ⟨kw, hkw, rfl, g, hg, hgp⟩)
        · exact Or.inl (Or.inl h1)
        · rcases List.mem_cons.mp hkw with rfl | hkw'
          · exact Or.inl (Or.inr ⟨rfl, g, hg, hgp⟩)
          · exact Or.inr ⟨kw, hkw', rfl, g, hg, hgp⟩
  exact (gen hd ([], [])).trans (by simp)


theorem mem_scanHashes_snd (hd : Dict (List Str)) (p1 p2 h : Str) :
    h ∈ (scanHashes hd p1 p2).2 ↔
      ∃ kv ∈ hd, kv.1 = h ∧ ∃ f ∈ kv.2, startswith f p2 = true := by
  have gen : ∀ (l : Dict (List Str)) (a : List Str × List Str),
      h ∈ (l.foldl (fun a kv => kv.2.foldl (scanStep p1 p2 kv.1) a) a).2 ↔
        h ∈ a.2 ∨ ∃ kv ∈ l, kv.1 = h ∧ ∃ f ∈ kv.2, startswith f p2 = true := by
    intro l
    induction l with
    | nil => simp
    | cons kv rest ih =>
      intro a
      rw [List.foldl_cons, ih, mem_scan_inner_snd]
      constructor
      · rintro ((h1 | ⟨rfl, g, hg, hgp⟩) | ⟨kw, hkw, rfl, g, hg, hgp⟩)
        · exact Or.inl h1
        · exact Or.inr ⟨kv, List.mem_cons_self kv rest, rfl, g, hg, hgp⟩
        · exact Or.inr ⟨kw, List.mem_cons_of_mem kv hkw, rfl, g, hg, hgp⟩
      · rintro (h1 | ⟨kw, hkw, rfl, g, hg, hgp⟩)
        · exact Or.inl (Or.inl h1)
        · rcases List.mem_cons.mp hkw with rfl | hkw'
          · exact Or.inl (Or.inr ⟨rfl, g, hg, hgp⟩)
          · exact Or.inr ⟨kw, hkw', rfl, g, hg, hgp⟩
  exact (gen hd ([], [])).trans (by simp)


theorem specRootHashes_iff_mem_scan_fst (hd : Dict (List Str)) (p1 p2 h : Str) :
    specRootHashes hd p1 h ↔ h ∈ (scanHashes hd p1 p2).1 := by
  rw [mem_scanHashes_fst]
  unfold specRootHashes
  constructor
  · rintro ⟨kv, hkv, rfl, f, hf, t, rfl⟩
    exact ⟨kv, hkv, rfl, p1 ++ t, hf, startswith_iff.mpr ⟨t, rfl⟩⟩
  · rintro ⟨kv, hkv, rfl, f, hf, hs⟩
    obtain ⟨t, rfl⟩ := startswith_iff.mp hs
    exact ⟨kv, hkv, rfl, p1 ++ t, hf, t, rfl⟩


theorem specRootHashes_iff_mem_scan_snd (hd : Dict (List Str)) (p1 p2 h : Str) :
    specRootHashes hd p2 h ↔ h ∈ (scanHashes hd p1 p2).2 := by
  rw [mem_scanHashes_snd]
  unfold specRootHashes
  constructor
  · rintro ⟨kv, hkv, rfl, f, hf, t, rfl⟩
    exact ⟨kv, hkv, rfl, p2 ++ t, hf, startswith_iff.mpr ⟨t, rfl⟩⟩
  · rintro ⟨kv, hkv, rfl, f, hf, hs⟩
    obtain ⟨t, rfl⟩ := startswith_iff.mp hs
    exact ⟨kv, hkv, rfl, p2 ++ t, hf, t, rfl⟩


theorem mem_keys_classify_fold_fst (hd : Dict (List Str)) (s2 : List Str)
    (l : List Str) (ce : Dict (List Str) × Dict (List Str)) (q : Str) :
    q ∈ dictKeys ((l.foldl (classifyStep hd s2) ce).1) ↔
      q ∈ dictKeys ce.1 ∨ (q ∈ l ∧ q ∈ s2) := by
  induction l generalizing ce with
  | nil => simp
  | cons h l ih =>
    rw [List.foldl_cons, ih]
    unfold classifyStep
    by_cases hs : h ∈ s2
    · simp only [hs, if_true, mem_dictKeys_dictInsert, List.mem_cons]
      constructor
      · rintro ((hq | rfl) | ⟨ql, qs⟩)
        · exact Or.inl hq
        · exact Or.inr ⟨Or.inl rfl, hs⟩
        · exact Or.inr ⟨Or.inr ql, qs⟩
      · rintro (hq | ⟨rfl | ql, qs⟩)
        · exact Or.inl (Or.inl hq)
        · exact Or.inl (Or.inr rfl)
        · exact Or.inr ⟨ql, qs⟩
    · simp only [hs, if_false, List.mem_cons]
      constructor
      · rintro (hq | ⟨ql, qs⟩)
        · exact Or.inl hq
        · exact Or.inr ⟨Or.inr ql, qs⟩
      · rintro (hq | ⟨rfl | ql, qs⟩)
        · exact Or.inl hq
        · exact absurd qs hs
        · exact Or.inr ⟨ql, qs⟩


theorem mem_keys_classify_fold_snd (hd : Dict (List Str)) (s2 : List Str)
    (l : List Str) (ce : Dict (List Str) × Dict (List Str)) (q : Str) :
    q ∈ dictKeys ((l.foldl (classifyStep hd s2) ce).2) ↔
      q ∈ dictKeys ce.2 ∨ (q ∈ l ∧ q ∉ s2) := by
  induction l generalizing ce with
  | nil => simp
  | cons h l ih =>
    rw [List.foldl_cons, ih]
    unfold classifyStep
    by_cases hs : h ∈ s2
    · simp only [hs, if_true, List.mem_cons]
      constructor
      · rintro (hq | ⟨ql, qs⟩)
        · exact Or.inl hq
        · exact Or.inr ⟨Or.inr ql, qs⟩
      · rintro (hq | ⟨rfl | ql, qs⟩)
        · exact Or.inl hq
        · exact absurd hs qs
        · exact Or.inr ⟨ql, qs⟩
    · simp only [hs, if_false, mem_dictKeys_dictInsert, List.mem_cons]
      constructor
      · rintro ((hq | rfl) | ⟨ql, qs⟩)
        · exact Or.inl hq
        · exact Or.inr ⟨Or.inl rfl, hs⟩
        · exact Or.inr ⟨Or.inr ql, qs⟩
      · rintro (hq | ⟨rfl | ql, qs⟩)
        · exact Or.inl (Or.inl hq)
        · exact Or.inl (Or.inr rfl)
        · exact Or.inr ⟨ql, qs⟩


theorem mem_keys_exclusive2_fold (hd : Dict (List Str)) (s1 : List Str)
    (l : List Str) (e : Dict (List Str)) (q : Str) :
    q ∈ dictKeys (l.foldl (exclusive2Step hd s1) e) ↔
      q ∈ dictKeys e ∨ (q ∈ l ∧ q ∉ s1) := by
  induction l generalizing e with
  | nil => simp
  | cons h l ih =>
    rw [List.foldl_cons, ih]
    unfold exclusive2Step
    by_cases hs : h ∈ s1
    · simp only [hs, if_true, List.mem_cons]
      constructor
      · rintro (hq | ⟨ql, qs⟩)
        · exact Or.inl hq
        · exact Or.inr ⟨Or.inr ql, qs⟩
      · rintro (hq | ⟨rfl | ql, qs⟩)
        · exact Or.inl hq
        · exact absurd hs qs
        · exact Or.inr ⟨ql, qs⟩
    · simp only [hs, if_false, mem_dictKeys_dictInsert, List.mem_cons]
      constructor
      · rintro ((hq | rfl) | ⟨ql, qs⟩)
        · exact Or.inl hq
        · exact Or.inr ⟨Or.inl rfl, hs⟩
        · exact Or.inr ⟨Or.inr ql, qs⟩
      · rintro (hq | ⟨rfl | ql, qs⟩)
        · exact Or.inl (Or.inl hq)
        · exact Or.inl (Or.inr rfl)
        · exact Or.inr ⟨ql, qs⟩


theorem keys_classify_common (abspath : Str → Str) (hd : Dict (List Str)) (path1 path2 h : Str) :
    h ∈ dictKeys (standard_output_classify abspath hd path1 path2).1 ↔
      h ∈ (scanHashes hd (abspath path1) (abspath path2)).1 ∧
        h ∈ (scanHashes hd (abspath path1) (abspath path2)).2 := by
  simp only [standard_output_classify]
  rw [mem_keys_classify_fold_fst]
  simp [dictKeys]


theorem keys_classify_ex1 (abspath : Str → Str) (hd : Dict (List Str)) (path1 path2 h : Str) :
    h ∈ dictKeys (standard_output_classify abspath hd path1 path2).2.1 ↔
      h ∈ (scanHashes hd (abspath path1) (abspath path2)).1 ∧
        h ∉ (scanHashes hd (abspath path1) (abspath path2)).2 := by
  simp only [standard_output_classify]
  rw [mem_keys_classify_fold_snd]
  simp [dictKeys]


theorem keys_classify_ex2 (abspath : Str → Str) (hd : Dict (List Str)) (path1 path2 h : Str) :
    h ∈ dictKeys (standard_output_classify abspath hd path1 path2).2.2 ↔
      h ∈ (scanHashes hd (abspath path1) (abspath path2)).2 ∧
        h ∉ (scanHashes hd (abspath path1) (abspath path2)).1 := by
  simp only [standard_output_classify]
  rw [mem_keys_exclusive2_fold]
  simp [dictKeys]


/-- Claim C1: for every hash_dict and pair of root paths, `standard_output`
computes `hashesA` as the set of digests having at least one associated path
whose string starts with the absolute form of `rootA` (plain string prefix
match), likewise `hashesB`, and returns `common = hashesA ∩ hashesB`,
`exclusiveA = hashesA − hashesB`, `exclusiveB = hashesB − hashesA` as the key
sets of the three output dictionaries. -/
theorem standard_output_classify_key_sets (abspath : Str → Str) (hd : Dict (List Str))
    (path1 path2 h : Str) :
    (h ∈ dictKeys (standard_output_classify abspath hd path1 path2).1 ↔
       specRootHashes hd (abspath path1) h ∧ specRootHashes hd (abspath path2) h) ∧
    (h ∈ dictKeys (standard_output_classify abspath hd path1 path2).2.1 ↔
       specRootHashes hd (abspath path1) h ∧ ¬ specRootHashes hd (abspath path2) h) ∧
    (h ∈ dictKeys (standard_output_classify abspath hd path1 path2).2.2 ↔
       specRootHashes hd (abspath path2) h ∧ ¬ specRootHashes hd (abspath path1) h) := by
  rw [keys_classify_common, keys_classify_ex1, keys_classify_ex2,
    specRootHashes_iff_mem_scan_fst hd (abspath path1) (abspath path2) h,
    specRootHashes_iff_mem_scan_snd hd (abspath path1) (abspath path2) h]
  exact ⟨Iff.rfl, Iff.rfl, Iff.rfl⟩


/-- Claim C2: the three digest key sets produced by the classification are
pairwise disjoint, and their union is exactly `hashesA ∪ hashesB`, the union
of the digest sets matched to the two roots by the prefix test. -/
theorem standard_output_classify_partition (abspath : Str → Str) (hd : Dict (List Str))
    (path1 path2 : Str) :
    (∀ h, h ∈ dictKeys (standard_output_classify abspath hd path1 path2).2.1 →
       h ∉ dictKeys (standard_output_classify abspath hd path1 path2).2.2) ∧
    (∀ h, h ∈ dictKeys (standard_output_classify abspath hd path1 path2).2.1 →
       h ∉ dictKeys (standard_output_classify abspath hd path1 path2).1) ∧
    (∀ h, h ∈ dictKeys (standard_output_classify abspath hd path1 path2).2.2 →
       h ∉ dictKeys (standard_output_classify abspath hd path1 path2).1) ∧
    (∀ h, (h ∈ dictKeys (standard_output_classify abspath hd path1 path2).2.1 ∨
           h ∈ dictKeys (standard_output_classify abspath hd path1 path2).2.2 ∨
           h ∈ dictKeys (standard_output_classify abspath hd path1 path2).1) ↔
          (h ∈ (scanHashes hd (abspath path1) (abspath path2)).1 ∨
           h ∈ (scanHashes hd (abspath path1) (abspath path2)).2)) := by
  refine ⟨fun h h1 => ?_, fun h h1 => ?_, fun h h2 => ?_, fun h => ?_⟩
  · rw [keys_classify_ex1] at h1
    rw [keys_classify_ex2]
    intro h2
    exact h2.2 h1.1
  · rw [keys_classify_ex1] at h1
    rw [keys_classify_common]
    intro h2
    exact h1.2 h2.2
  · rw [keys_classify_ex2] at h2
    rw [keys_classify_common]
    intro h1
    exact h2.2 h1.1
  · rw [keys_classify_ex1, keys_classify_ex2, keys_classify_common]
    by_cases ha : h ∈ (scanHashes hd (abspath path1) (abspath path2)).1 <;>
      by_cases hb : h ∈ (scanHashes hd (abspath path1) (abspath path2)).2 <;>
      simp [ha, hb]


/-- Claim C3 counterexample: with `exclusiveA` the only non-empty set the code
prints "All files in '{path2}' are in '{path1}'" — all files in B are in A —
whereas the claim maps "only exclusiveA non-empty" to "all files in A are in
B".  (The claim has the two one-sided messages swapped.) -/
theorem summary_message_claim_swapped :
    summary_message [([' '], [])] [] [] = SummaryMsg.allFilesOf2In1 ∧
      SummaryMsg.allFilesOf2In1 ≠ SummaryMsg.allFilesOf1In2 := by
  constructor
  · rfl
  · decide


/-- Claim C3 (amended): the five summary conditions, read as the code's
if/elif chain, are mutually exclusive and exhaustive, and map as follows:
both exclusive sets empty → "all files in A are in B and vice-versa"; only
`exclusiveA` non-empty → "all files in B are in A"; only `exclusiveB`
non-empty → "all files in A are in B"; both exclusive sets non-empty with
`common` non-empty → "some files differ both ways"; both exclusive sets
non-empty with `common` empty → "completely different".  (Each input
satisfies exactly one condition because the message equals exactly one
constructor.) -/
theorem summary_message_cases (exclusive1 exclusive2 common : Dict (List Str)) :
    ((exclusive1 = [] ∧ exclusive2 = []) ↔
       summary_message exclusive1 exclusive2 common = SummaryMsg.allBothWays) ∧
    ((exclusive1 ≠ [] ∧ exclusive2 = []) ↔
       summary_message exclusive1 exclusive2 common = SummaryMsg.allFilesOf2In1) ∧
    ((exclusive1 = [] ∧ exclusive2 ≠ []) ↔
       summary_message exclusive1 exclusive2 common = SummaryMsg.allFilesOf1In2) ∧
    ((exclusive1 ≠ [] ∧ exclusive2 ≠ [] ∧ common ≠ []) ↔
       summary_message exclusive1 exclusive2 common = SummaryMsg.someDiffer) ∧
    ((exclusive1 ≠ [] ∧ exclusive2 ≠ [] ∧ common = []) ↔
       summary_message exclusive1 exclusive2 common = SummaryMsg.completelyDifferent) ∧
    ((exclusive1 = [] ∧ exclusive2 = []) ∨ (exclusive1 ≠ [] ∧ exclusive2 = []) ∨
     (exclusive1 = [] ∧ exclusive2 ≠ []) ∨
     (exclusive1 ≠ [] ∧ exclusive2 ≠ [] ∧ common ≠ []) ∨
     (exclusive1 ≠ [] ∧ exclusive2 ≠ [] ∧ common = [])) := by
  rcases exclusive1 with _ | ⟨a1, l1⟩ <;> rcases exclusive2 with _ | ⟨a2, l2⟩ <;>
    rcases common with _ | ⟨ac, lc⟩ <;>
    simp [summary_message]


/-! ## xdiff.py — building the hash index (claims C4, C5)

`dirs_hash_dict` (19-47) and `files_hash_dict` (50-74) walk the resolved
files; for each file they take `os.path.abspath`, look the absolute path up in
`cache_dict` and only call `fu.xxh` on a cache miss.  `dirs_hash_dict` inserts
through `add_to_list_dict` (7-16); `files_hash_dict` appends to the bucket
without the duplicate check.  The directory traversal and the
`is_readable_file` filter are external; `files` stands for the sequence of
file paths that survive them, in iteration order. -/
theorem dictFind_eq_none {α : Type} {d : Dict α} {k : Str} :
    dictFind d k = none ↔ k ∉ dictKeys d := by
  induction d with
  | nil => simp [dictFind, dictKeys]
  | cons kv rest ih =>
    by_cases hk : kv.1 = k
    · subst hk
      rw [dictKeys_cons]
      constructor
      · intro h
        simp [dictFind] at h
      · intro h
        exact absurd (List.mem_cons_self _ _) h
    · rw [dictKeys_cons, List.mem_cons]
      simp only [dictFind, hk, if_false, ih]
      push_neg
      constructor
      · intro h
        exact ⟨fun he => hk he.symm, h⟩
      · intro h
        exact h.2


theorem dictFind_some_mem {α : Type} {d : Dict α} {k : Str} {v : α}
    (h : dictFind d k = some v) : (k, v) ∈ d := by
  induction d with
  | nil => simp [dictFind] at h
  | cons kv rest ih =>
    by_cases hk : kv.1 = k
    · simp only [dictFind, hk, if_true, Option.some.injEq] at h
      subst h
      rw [← hk]
      exact List.mem_cons_self kv rest
    · simp only [dictFind, hk, if_false] at h
      exact List.mem_cons_of_mem kv (ih h)


theorem mem_dictInsert_sub {α : Type} {d : Dict α} {k : Str} {w : α} {kv' : Str × α}
    (h : kv' ∈ dictInsert d k w) : kv' ∈ d ∨ kv' = (k, w) := by
  induction d with
  | nil => simpa [dictInsert] using h
  | cons kv rest ih =>
    by_cases hk : kv.1 = k
    · simp only [dictInsert, hk, if_true, List.mem_cons] at h
      rcases h with rfl | h
      · exact Or.inr rfl
      · exact Or.inl (List.mem_cons_of_mem kv h)
    · simp only [dictInsert, hk, if_false, List.mem_cons] at h
      rcases h with rfl | h
      · exact Or.inl (List.mem_cons_self kv' rest)
      · rcases ih h with h | h
        · exact Or.inl (List.mem_cons_of_mem kv h)
        · exact Or.inr h
  

theorem dictKeys_dictInsert_of_mem {α : Type} {d : Dict α} {k : Str} {w : α}
    (h : k ∈ dictKeys d) : dictKeys (dictInsert d k w) = dictKeys d := by
  induction d with
  | nil => simp [dictKeys] at h
  | cons kv rest ih =>
    by_cases hk : kv.1 = k
    · have h1 : dictInsert (kv :: rest) k w = (k, w) :: rest := by
        simp [dictInsert, hk]
      rw [h1, dictKeys_cons, dictKeys_cons, hk]
    · have h1 : dictInsert (kv :: rest) k w = kv :: dictInsert rest k w := by
        simp [dictInsert, hk]
      rw [dictKeys_cons, List.mem_cons] at h
      rcases h with h | h
      · exact absurd h.symm hk
      · rw [h1, dictKeys_cons, dictKeys_cons, ih h]


theorem dictFind_append {α : Type} (d1 d2 : Dict α) (q : Str) :
    dictFind (d1 ++ d2) q =
      match dictFind d1 q with
      | some v => some v
      | none => dictFind d2 q := by
  induction d1 with
  | nil => simp [dictFind]
  | cons kv rest ih =>
    by_cases hk : kv.1 = q <;> simp [dictFind, hk, ih]


theorem goodIndex_nil (hfun : Str → Str) : goodIndex hfun [] := by
  constructor
  · simp [dictKeys]
  · intro kv h
    simp at h


theorem goodIndex_add (hfun : Str → Str) {d : Dict (List Str)} (a : Str)
    (hg : goodIndex hfun d) : goodIndex hfun (add_to_list_dict d (hfun a) a) := by
  obtain ⟨hkeys, hbuckets⟩ := hg
  unfold add_to_list_dict
  cases hfind : dictFind d (hfun a) with
  | some vs =>
    by_cases hmem : a ∈ vs
    · simpa [hmem] using ⟨hkeys, hbuckets⟩
    · simp only [hmem, if_false]
      have hkmem : hfun a ∈ dictKeys d := by
        by_contra hno
        rw [← dictFind_eq_none] at hno
        rw [hno] at hfind
        exact Option.noConfusion hfind
      constructor
      · rw [dictKeys_dictInsert_of_mem hkmem]
        exact hkeys
      · intro kv hkv
        rcases mem_dictInsert_sub hkv with hkv' | rfl
        · exact hbuckets kv hkv'
        · obtain ⟨hnd, hall⟩ := hbuckets _ (dictFind_some_mem hfind)
          refine ⟨?_, ?_⟩
          · rw [List.nodup_append]
            refine ⟨hnd, List.nodup_singleton a, ?_⟩
            intro x hx hx'
            rcases List.mem_singleton.mp hx' with rfl
            exact hmem hx
          · intro p hp
            rcases List.mem_append.mp hp with hp | hp
            · exact hall p hp
            · rcases List.mem_singleton.mp hp with rfl
              rfl
  | none =>
    constructor
    · have hno : hfun a ∉ dictKeys d := dictFind_eq_none.mp hfind
      have hkeq : dictKeys (d ++ [(hfun a, [a])]) = dictKeys d ++ [hfun a] := by
        simp [dictKeys]
      rw [hkeq, List.nodup_append]
      refine ⟨hkeys, List.nodup_singleton _, ?_⟩
      intro x hx hx'
      rcases List.mem_singleton.mp hx' with rfl
      exact hno hx
    · intro kv hkv
      rcases List.mem_append.mp hkv with hkv' | hkv'
      · exact hbuckets kv hkv'
      · rcases List.mem_singleton.mp hkv' with rfl
        exact ⟨List.nodup_singleton a, by simp⟩


theorem hasPath_add_self (d : Dict (List Str)) (k a : Str) :
    hasPath (add_to_list_dict d k a) k a := by
  unfold add_to_list_dict
  cases hfind : dictFind d k with
  | some vs =>
    by_cases hmem : a ∈ vs
    · simpa [hmem] using ⟨vs, hfind, hmem⟩
    · simp only [hmem, if_false]
      exact ⟨vs ++ [a], by rw [dictFind_dictInsert]; simp, by simp⟩
  | none =>
    refine ⟨[a], ?_, by simp⟩
    rw [dictFind_append, hfind]
    simp [dictFind]


theorem hasPath_add_mono {d : Dict (List Str)} {k p : Str} (k' b : Str)
    (h : hasPath d k p) : hasPath (add_to_list_dict d k' b) k p := by
  obtain ⟨vs, hfind, hp⟩ := h
  unfold add_to_list_dict
  cases hfind' : dictFind d k' with
  | some vs' =>
    by_cases hmem : b ∈ vs'
    · simpa [hmem] using ⟨vs, hfind, hp⟩
    · simp only [hmem, if_false]
      by_cases hk : k' = k
      · subst hk
        rw [hfind] at hfind'
        cases hfind'
        exact ⟨vs ++ [b], by rw [dictFind_dictInsert]; simp, List.mem_append_left _ hp⟩
      · exact ⟨vs, by rw [dictFind_dictInsert]; simp [hk, hfind], hp⟩
  | none =>
    refine ⟨vs, ?_, hp⟩
    rw [dictFind_append, hfind]


theorem hasPath_files_insert_self (d : Dict (List Str)) (k a : Str) :
    hasPath (files_insert d k a) k a := by
  unfold files_insert
  cases hfind : dictFind d k with
  | some vs =>
    exact ⟨vs ++ [a], by rw [dictFind_dictInsert]; simp, by simp⟩
  | none =>
    refine ⟨[a], ?_, by simp⟩
    rw [dictFind_append, hfind]
    simp [dictFind]


theorem hasPath_files_insert_mono {d : Dict (List Str)} {k p : Str} (k' b : Str)
    (h : hasPath d k p) : hasPath (files_insert d k' b) k p := by
  obtain ⟨vs, hfind, hp⟩ := h
  unfold files_insert
  cases hfind' : dictFind d k' with
  | some vs' =>
    by_cases hk : k' = k
    · subst hk
      rw [hfind] at hfind'
      cases hfind'
      exact ⟨vs ++ [b], by rw [dictFind_dictInsert]; simp, List.mem_append_left _ hp⟩
    · exact ⟨vs, by rw [dictFind_dictInsert]; simp [hk, hfind], hp⟩
  | none =>
    refine ⟨vs, ?_, hp⟩
    rw [dictFind_append, hfind]


theorem goodIndex_dirs_fold (cache : Dict Str) (xxh abspath : Str → Str)
    (files : List Str) :
    ∀ d, goodIndex (hashOfFile cache xxh) d →
      goodIndex (hashOfFile cache xxh)
        (files.foldl
          (fun d f => add_to_list_dict d (hashOfFile cache xxh (abspath f)) (abspath f)) d) := by
  induction files with
  | nil => intro d hg; exact hg
  | cons f files ih =>
    intro d hg
    rw [List.foldl_cons]
    exact ih _ (goodIndex_add (hashOfFile cache xxh) (abspath f) hg)


theorem hasPath_dirs_fold_mono (cache : Dict Str) (xxh abspath : Str → Str)
    (files : List Str) {k p : Str} :
    ∀ d, hasPath d k p →
      hasPath (files.foldl
        (fun d f => add_to_list_dict d (hashOfFile cache xxh (abspath f)) (abspath f)) d) k p := by
  induction files with
  | nil => intro d h; exact h
  | cons f files ih =>
    intro d h
    rw [List.foldl_cons]
    exact ih _ (hasPath_add_mono _ _ h)


theorem hasPath_dirs_fold (cache : Dict Str) (xxh abspath : Str → Str)
    (files : List Str) {g : Str} (hg : g ∈ files) :
    ∀ d, hasPath (files.foldl
      (fun d f => add_to_list_dict d (hashOfFile cache xxh (abspath f)) (abspath f)) d)
      (hashOfFile cache xxh (abspath g)) (abspath g) := by
  induction files with
  | nil => simp at hg
  | cons f files ih =>
    intro d
    rw [List.foldl_cons]
    rcases List.mem_cons.mp hg with rfl | hg'
    · exact hasPath_dirs_fold_mono cache xxh abspath files _ (hasPath_add_self _ _ _)
    · exact ih hg' _


theorem goodIndex_paths_once {hfun : Str → Str} {d : Dict (List Str)}
    (hg : goodIndex hfun d) : indexPathsOnce d := by
  intro kv1 h1 kv2 h2 p hp1 hp2
  have e1 := (hg.2 kv1 h1).2 p hp1
  have e2 := (hg.2 kv2 h2).2 p hp2
  rw [← e1, ← e2]


/-- Claim C4 counterexample: `files_hash_dict` invoked with the two file
arguments resolving to the same absolute path (exactly what the repository's
own `__main__` block of xdiff.py does, path1 = path2) stores that path twice
in the bucket of its digest, violating "no path appears twice within the list
stored under a single digest key". -/
theorem files_hash_dict_duplicate_path :
    ¬ indexValuesNodup
        (files_hash_dict [] (fun _ => ['h']) (fun x => x) ['p'] ['p']) := by
  intro hinv
  have hmem : (['h'], [['p'], ['p']]) ∈
      files_hash_dict [] (fun _ => ['h']) (fun x => x) ['p'] ['p'] := by
    decide
  have := hinv _ hmem
  simp at this


/-- Claim C4 (amended): for every index built by a run, every inserted path
appears under exactly one digest key — it is recorded under the key its
(cache-aware) hash determines, and under no two distinct keys.  Buckets built
by `dirs_hash_dict` never hold a path twice; buckets built by
`files_hash_dict` never hold a path twice provided the two file arguments
resolve to distinct absolute paths (when they coincide, that path is stored
twice under its digest, see the counterexample). -/
theorem hash_index_invariant (cache : Dict Str) (xxh abspath : Str → Str) :
    (∀ files : List Str,
       indexPathsOnce (dirs_hash_dict cache xxh abspath files) ∧
       indexValuesNodup (dirs_hash_dict cache xxh abspath files) ∧
       ∀ f ∈ files,
         hasPath (dirs_hash_dict cache xxh abspath files)
           (hashOfFile cache xxh (abspath f)) (abspath f)) ∧
    (∀ file1 file2 : Str,
       indexPathsOnce (files_hash_dict cache xxh abspath file1 file2) ∧
       (∀ f, f = file1 ∨ f = file2 →
         hasPath (files_hash_dict cache xxh abspath file1 file2)
           (hashOfFile cache xxh (abspath f)) (abspath f)) ∧
       (abspath file1 ≠ abspath file2 →
         indexValuesNodup (files_hash_dict cache xxh abspath file1 file2))) := by
  constructor
  · intro files
    have hgood : goodIndex (hashOfFile cache xxh) (dirs_hash_dict cache xxh abspath files) :=
      goodIndex_dirs_fold cache xxh abspath files [] (goodIndex_nil _)
    refine ⟨goodIndex_paths_once hgood, fun kv hkv => (hgood.2 kv hkv).1, ?_⟩
    intro f hf
    exact hasPath_dirs_fold cache xxh abspath files hf []
  · intro file1 file2
    set a1 := abspath file1 with ha1
    set a2 := abspath file2 with ha2
    set h1 := hashOfFile cache xxh a1 with hh1
    set h2 := hashOfFile cache xxh a2 with hh2
    have hstep1 : files_insert [] h1 a1 = [(h1, [a1])] := by
      simp [files_insert, dictFind]
    have hbase : files_hash_dict cache xxh abspath file1 file2 =
        files_insert [(h1, [a1])] h2 a2 := by
      simp only [files_hash_dict, List.foldl_cons, List.foldl_nil, hstep1, ← ha1, ← ha2, ← hh1,
        ← hh2]
    by_cases heq : h2 = h1
    · have hres : files_hash_dict cache xxh abspath file1 file2 = [(h1, [a1, a2])] := by
        rw [hbase, heq]
        simp [files_insert, dictFind, dictInsert]
      refine ⟨?_, ?_, ?_⟩
      · intro kv1 hk1 kv2 hk2 p hp1 hp2
        rw [hres] at hk1 hk2
        rcases List.mem_singleton.mp hk1 with rfl
        rcases List.mem_singleton.mp hk2 with rfl
        rfl
      · intro f hf
        refine ⟨[a1, a2], ?_, ?_⟩
        · rw [hres]
          rcases hf with rfl | rfl
          · simp [dictFind, ← hh1]
          · simp [dictFind, heq, ← hh2]
        · rcases hf with rfl | rfl
          · simp [← ha1]
          · simp [← ha2]
      · intro hne kv hkv
        rw [hres] at hkv
        rcases List.mem_singleton.mp hkv with rfl
        simp only [List.nodup_cons, List.mem_singleton]
        exact ⟨hne, by simp, List.nodup_nil⟩
    · have heq' : ¬ h1 = h2 := fun h => heq h.symm
      have haneq : a1 ≠ a2 := by
        intro h
        rw [hh1, hh2, h] at heq
        exact heq rfl
      have hres : files_hash_dict cache xxh abspath file1 file2 =
          [(h1, [a1]), (h2, [a2])] := by
        rw [hbase]
        simp [files_insert, dictFind, heq']
      refine ⟨?_, ?_, ?_⟩
      · intro kv1 hk1 kv2 hk2 p hp1 hp2
        rw [hres] at hk1 hk2
        have key : ∀ kv ∈ [(h1, [a1]), (h2, [a2])], ∀ q : Str, q ∈ kv.2 →
            (kv.1 = h1 ∧ q = a1) ∨ (kv.1 = h2 ∧ q = a2) := by
          intro kv hkv q hq
          rcases List.mem_cons.mp hkv with rfl | hkv'
          · exact Or.inl ⟨rfl, List.mem_singleton.mp hq⟩
          · rcases List.mem_singleton.mp hkv' with rfl
            exact Or.inr ⟨rfl, List.mem_singleton.mp hq⟩
        rcases key kv1 hk1 p hp1 with ⟨e1, f1⟩ | ⟨e1, f1⟩ <;>
          rcases key kv2 hk2 p hp2 with ⟨e2, f2⟩ | ⟨e2, f2⟩
        · rw [e1, e2]
        · exact absurd (f1.symm.trans f2) haneq
        · exact absurd (f1.symm.trans f2) (fun h => haneq h.symm)
        · rw [e1, e2]
      · intro f hf
        rcases hf with rfl | rfl
        · exact ⟨[a1], by rw [hres]; simp [dictFind, ← hh1], by simp [← ha1]⟩
        · refine ⟨[a2], ?_, by simp [← ha2]⟩
          rw [hres]
          simp [dictFind, heq', ← hh2]
      · intro _ kv hkv
        rw [hres] at hkv
        rcases List.mem_cons.mp hkv with rfl | hkv'
        · exact List.nodup_singleton _
        · rcases List.mem_singleton.mp hkv' with rfl
          exact List.nodup_singleton _


/-- Witness for the amended claim C4 at a concrete run: two distinct files
with equal content share one digest bucket holding each path once. -/
theorem hash_index_invariant_witness :
    (fun x : Str => x) ['p'] ≠ (fun x : Str => x) ['q'] ∧
      indexValuesNodup (files_hash_dict [] (fun _ => ['h']) (fun x => x) ['p'] ['q']) := by
  refine ⟨by decide, ?_⟩
  exact ((hash_index_invariant [] (fun _ => ['h']) (fun x => x)).2 ['p'] ['q']).2.2 (by decide)


theorem dirs_trace_fold (cache : Dict Str) (xxh abspath : Str → Str) (files : List Str) :
    ∀ d t, files.foldl (dirs_trace_step cache xxh abspath) (d, t) =
      (files.foldl (fun d f => add_to_list_dict d (hashOfFile cache xxh (abspath f)) (abspath f)) d,
       t ++ (files.map abspath).filter (fun a => (dictFind cache a).isNone)) := by
  induction files with
  | nil => intro d t; simp
  | cons f files ih =>
    intro d t
    rw [List.foldl_cons, List.foldl_cons]
    cases hfind : dictFind cache (abspath f) with
    | some h =>
      have hstep : dirs_trace_step cache xxh abspath (d, t) f =
          (add_to_list_dict d h (abspath f), t) := by
        simp [dirs_trace_step, hfind]
      have hhash : hashOfFile cache xxh (abspath f) = h := by
        simp [hashOfFile, hfind]
      rw [hstep, ih, hhash]
      simp [List.filter_cons, hfind]
    | none =>
      have hstep : dirs_trace_step cache xxh abspath (d, t) f =
          (add_to_list_dict d (xxh (abspath f)) (abspath f), t ++ [abspath f]) := by
        simp [dirs_trace_step, hfind]
      have hhash : hashOfFile cache xxh (abspath f) = xxh (abspath f) := by
        simp [hashOfFile, hfind]
      rw [hstep, ih, hhash]
      simp [List.filter_cons, hfind]


theorem files_trace_fold (cache : Dict Str) (xxh abspath : Str → Str) (files : List Str) :
    ∀ d t, files.foldl (files_trace_step cache xxh abspath) (d, t) =
      (files.foldl (fun d f => files_insert d (hashOfFile cache xxh (abspath f)) (abspath f)) d,
       t ++ (files.map abspath).filter (fun a => (dictFind cache a).isNone)) := by
  induction files with
  | nil => intro d t; simp
  | cons f files ih =>
    intro d t
    rw [List.foldl_cons, List.foldl_cons]
    cases hfind : dictFind cache (abspath f) with
    | some h =>
      have hstep : files_trace_step cache xxh abspath (d, t) f =
          (files_insert d h (abspath f), t) := by
        simp [files_trace_step, hfind]
      have hhash : hashOfFile cache xxh (abspath f) = h := by
        simp [hashOfFile, hfind]
      rw [hstep, ih, hhash]
      simp [List.filter_cons, hfind]
    | none =>
      have hstep : files_trace_step cache xxh abspath (d, t) f =
          (files_insert d (xxh (abspath f)) (abspath f), t ++ [abspath f]) := by
        simp [files_trace_step, hfind]
      have hhash : hashOfFile cache xxh (abspath f) = xxh (abspath f) := by
        simp [hashOfFile, hfind]
      rw [hstep, ih, hhash]
      simp [List.filter_cons, hfind]


/-- Claim C5: during index building (both `dirs_hash_dict` and
`files_hash_dict`), an entry whose absolute path is a key of the cache
dictionary is recorded under the cached digest without invoking `fu.xxh`,
while an entry missing from the cache causes exactly one `fu.xxh` invocation;
the recorded invocation list is precisely the absolute paths absent from the
cache, and the instrumented builds return the same index. -/
theorem cache_hit_skips_hashing (cache : Dict Str) (xxh abspath : Str → Str) :
    (∀ files : List Str,
       (dirs_hash_dict_trace cache xxh abspath files).1 =
         dirs_hash_dict cache xxh abspath files ∧
       (dirs_hash_dict_trace cache xxh abspath files).2 =
         (files.map abspath).filter (fun a => (dictFind cache a).isNone) ∧
       ∀ f ∈ files,
         (∀ h, dictFind cache (abspath f) = some h →
            abspath f ∉ (dirs_hash_dict_trace cache xxh abspath files).2 ∧
            hasPath (dirs_hash_dict cache xxh abspath files) h (abspath f)) ∧
         (dictFind cache (abspath f) = none →
            abspath f ∈ (dirs_hash_dict_trace cache xxh abspath files).2)) ∧
    (∀ file1 file2 : Str,
       (files_hash_dict_trace cache xxh abspath file1 file2).1 =
         files_hash_dict cache xxh abspath file1 file2 ∧
       (files_hash_dict_trace cache xxh abspath file1 file2).2 =
         ([file1, file2].map abspath).filter (fun a => (dictFind cache a).isNone)) := by
  constructor
  · intro files
    have htr := dirs_trace_fold cache xxh abspath files [] []
    have h1 : (dirs_hash_dict_trace cache xxh abspath files).1 =
        dirs_hash_dict cache xxh abspath files := by
      rw [dirs_hash_dict_trace, htr, dirs_hash_dict]
    have h2 : (dirs_hash_dict_trace cache xxh abspath files).2 =
        (files.map abspath).filter (fun a => (dictFind cache a).isNone) := by
      rw [dirs_hash_dict_trace, htr]
      simp
    refine ⟨h1, h2, ?_⟩
    intro f hf
    constructor
    · intro h hfind
      constructor
      · rw [h2]
        intro hin
        have := (List.mem_filter.mp hin).2
        rw [hfind] at this
        simp at this
      · have := hasPath_dirs_fold cache xxh abspath files hf []
        rw [show hashOfFile cache xxh (abspath f) = h by simp [hashOfFile, hfind]] at this
        exact this
    · intro hfind
      rw [h2]
      exact List.mem_filter.mpr ⟨List.mem_map_of_mem abspath hf, by simp [hfind]⟩
  · intro file1 file2
    have htr := files_trace_fold cache xxh abspath [file1, file2] [] []
    constructor
    · rw [files_hash_dict_trace, htr, files_hash_dict]
    · rw [files_hash_dict_trace, htr]
      simp


/-- Witness for claim C5 at a concrete run: cache `{'a': 'h'}`, files
`['a', 'b']`; the cached file 'a' is not in the invocation list and lands
under digest 'h', while 'b' (a cache miss) is in the invocation list. -/
theorem cache_hit_skips_hashing_witness :
    (['a'] : Str) ∈ [(['a'] : Str), ['b']] ∧
    dictFind [((['a'] : Str), (['h'] : Str))] ((fun x => x) (['a'] : Str)) = some ['h'] ∧
    ((fun x : Str => x) ['a'] ∉
        (dirs_hash_dict_trace [((['a'] : Str), (['h'] : Str))] (fun _ => ['x'])
          (fun x => x) [['a'], ['b']]).2 ∧
      hasPath (dirs_hash_dict [((['a'] : Str), (['h'] : Str))] (fun _ => ['x'])
          (fun x => x) [['a'], ['b']]) ['h'] ((fun x : Str => x) ['a'])) := by
  refine ⟨by decide, by decide, ?_⟩
  exact (((cache_hit_skips_hashing [((['a'] : Str), (['h'] : Str))] (fun _ => ['x'])
    (fun x => x)).1 [['a'], ['b']]).2.2 ['a'] (by decide)).1 ['h'] (by decide)


theorem mem_of_getLast {l : Str} {c : Char} (h : l.getLast? = some c) : c ∈ l := by
  induction l with
  | nil => simp [List.getLast?] at h
  | cons a l ih =>
    cases l with
    | nil =>
      simp [List.getLast?] at h
      simp [h]
    | cons b t =>
      rw [List.getLast?_cons_cons] at h
      exact List.mem_cons_of_mem _ (ih h)


theorem stripNl_no_newline {line : Str} (hn : '\n' ∉ line) : stripNl line = line := by
  rw [stripNl, if_neg]
  intro h
  exact hn (mem_of_getLast h)


theorem matchCacheLine_spec_aux {line : Str} (hn : '\n' ∉ line) (h p : Str) :
    matchCacheLine line = some (h, p) ↔
      (line = h ++ ' ' :: ' ' :: p ∧ h.length = 16 ∧ h.all isHexLower = true ∧ p ≠ []) := by
  unfold matchCacheLine
  rw [stripNl_no_newline hn]
  constructor
  · intro hm
    split_ifs at hm with hcond
    · obtain ⟨hlen, hhex, hsep, hne, _⟩ := hcond
      rw [Option.some.injEq, Prod.mk.injEq] at hm
      obtain ⟨rfl, rfl⟩ := hm
      refine ⟨?_, hlen, hhex, hne⟩
      conv_lhs => rw [← List.take_append_drop 16 line]
      congr 1
      conv_lhs => rw [← List.take_append_drop 2 (line.drop 16)]
      rw [hsep, List.drop_drop]
      norm_num
  · rintro ⟨rfl, hlen, hhex, hne⟩
    have htake : (h ++ ' ' :: ' ' :: p).take 16 = h := List.take_left' hlen
    have hdrop : (h ++ ' ' :: ' ' :: p).drop 16 = ' ' :: ' ' :: p := List.drop_left' hlen
    have hdrop18 : (h ++ ' ' :: ' ' :: p).drop 18 = p := by
      have h2 := List.drop_drop 2 16 (h ++ ' ' :: ' ' :: p)
      rw [hdrop] at h2
      rw [show (18 : Nat) = 16 + 2 by norm_num, ← h2]
      rfl
    have hp : '\n' ∉ p := fun hmem =>
      hn (List.mem_append_right h (List.mem_cons_of_mem _ (List.mem_cons_of_mem _ hmem)))
    rw [if_pos]
    · rw [htake, hdrop18]
    · exact ⟨by rw [htake]; exact hlen, by rw [htake]; exact hhex,
        by rw [hdrop]; rfl, by rw [hdrop18]; exact hne, by rw [hdrop18]; exact hp⟩


theorem matchCacheLine_trailing_newline {line : Str} (hn : '\n' ∉ line) :
    matchCacheLine (line ++ ['\n']) = matchCacheLine line := by
  have hs : stripNl (line ++ ['\n']) = line := by
    rw [stripNl, List.getLast?_concat, if_pos rfl, List.dropLast_concat]
  unfold matchCacheLine
  rw [hs, stripNl_no_newline hn]


theorem get_hashes_fold_lookup (abspath : Str → Str) (lines : List Str) (q : Str) :
    ∀ d, dictFind
      (lines.foldl (fun d line =>
        match matchCacheLine line with
        | some hp => dictInsert d (abspath hp.2) hp.1
        | none => d) d) q =
      match lastDigestFor abspath lines q with
      | some h => some h
      | none => dictFind d q := by
  induction lines with
  | nil => intro d; simp [lastDigestFor]
  | cons l rest ih =>
    intro d
    rw [List.foldl_cons, ih]
    show _ = match lastDigestFor abspath (l :: rest) q with
      | some h => some h
      | none => dictFind d q
    rw [lastDigestFor]
    cases hrest : lastDigestFor abspath rest q with
    | some h => rfl
    | none =>
      cases hline : matchCacheLine l with
      | some hp =>
        simp only
        rw [dictFind_dictInsert]
        by_cases hq : abspath hp.2 = q
        · rw [if_pos hq, if_pos hq]
        · rw [if_neg hq, if_neg hq]
      | none => rfl


/-- Claim C6: cache loading accepts exactly the lines of the form 16 lowercase
hex characters, two literal spaces, and a non-empty remainder taken as the
path (a raw line's trailing newline is immaterial); every non-matching line
is skipped without any effect; and when several accepted lines carry the same
absolute path, the cache maps that path to the digest of the last such line
in top-to-bottom order. -/
theorem get_hashes_from_cache_spec (abspath : Str → Str) :
    (∀ line : Str, '\n' ∉ line →
       (∀ h p : Str, matchCacheLine line = some (h, p) ↔
          (line = h ++ ' ' :: ' ' :: p ∧ h.length = 16 ∧
            h.all isHexLower = true ∧ p ≠ [])) ∧
       matchCacheLine (line ++ ['\n']) = matchCacheLine line) ∧
    (∀ (line : Str) (lines : List Str), matchCacheLine line = none →
       get_hashes_from_cache abspath (line :: lines) =
         get_hashes_from_cache abspath lines) ∧
    (∀ (lines : List Str) (q : Str),
       dictFind (get_hashes_from_cache abspath lines) q = lastDigestFor abspath lines q) := by
  refine ⟨fun line hn => ⟨matchCacheLine_spec_aux hn, matchCacheLine_trailing_newline hn⟩,
    fun line lines hnone => ?_, fun lines q => ?_⟩
  · rw [get_hashes_from_cache, List.foldl_cons, hnone]
    rfl
  · rw [get_hashes_from_cache, get_hashes_fold_lookup abspath lines q []]
    cases lastDigestFor abspath lines q with
    | some h => rfl
    | none => simp [dictFind]


/-- Witness for claim C6 at concrete inputs: a well-formed line is accepted
with its two groups, a malformed line is skipped, and the lookup of the
loaded cache agrees with the last-accepted-line description. -/
theorem get_hashes_from_cache_spec_witness :
    ('\n' ∉ hexLineEx) ∧
    (matchCacheLine hexLineEx = some (hexDigestEx, ['p']) ↔
       (hexLineEx = hexDigestEx ++ ' ' :: ' ' :: ['p'] ∧ hexDigestEx.length = 16 ∧
         hexDigestEx.all isHexLower = true ∧ (['p'] : Str) ≠ [])) ∧
    (matchCacheLine (['x'] : Str) = none) ∧
    get_hashes_from_cache (fun x => x) [['x'], hexLineEx] =
      get_hashes_from_cache (fun x => x) [hexLineEx] ∧
    dictFind (get_hashes_from_cache (fun x => x) [hexLineEx]) ['p'] =
      lastDigestFor (fun x => x) [hexLineEx] ['p'] := by
  obtain ⟨h1, h2, h3⟩ := get_hashes_from_cache_spec (fun x => x)
  exact ⟨by decide, (h1 hexLineEx (by decide)).1 hexDigestEx ['p'], by decide,
    h2 ['x'] [hexLineEx] (by decide), h3 [hexLineEx] ['p']⟩


theorem mem_dir_fold (fs : FS) (exclude : List Str) (fls : List Str) :
    ∀ (info : PathsInfo) (q : Str),
      q ∈ (fls.foldl (fun i f =>
          if fs.isReadableFile f = false ∨ f ∈ exclude then i
          else { files := pyAdd i.files f,
                 file_count := i.file_count + 1,
                 total_bytes := i.total_bytes + fs.size f }) info).files ↔
        q ∈ info.files ∨ (q ∈ fls ∧ fs.isReadableFile q = true ∧ q ∉ exclude) := by
  induction fls with
  | nil => intro info q; simp
  | cons f fls ih =>
    intro info q
    rw [List.foldl_cons, ih]
    by_cases hr : fs.isReadableFile f = false
    · rw [if_pos (Or.inl hr)]
      simp only [List.mem_cons]
      constructor
      · rintro (hq | ⟨hql, hqr, hqe⟩)
        · exact Or.inl hq
        · exact Or.inr ⟨Or.inr hql, hqr, hqe⟩
      · rintro (hq | ⟨rfl | hql, hqr, hqe⟩)
        · exact Or.inl hq
        · rw [hqr] at hr
          exact absurd hr (by simp)
        · exact Or.inr ⟨hql, hqr, hqe⟩
    · by_cases he : f ∈ exclude
      · rw [if_pos (Or.inr he)]
        simp only [List.mem_cons]
        constructor
        · rintro (hq | ⟨hql, hqr, hqe⟩)
          · exact Or.inl hq
          · exact Or.inr ⟨Or.inr hql, hqr, hqe⟩
        · rintro (hq | ⟨rfl | hql, hqr, hqe⟩)
          · exact Or.inl hq
          · exact absurd he hqe
          · exact Or.inr ⟨hql, hqr, hqe⟩
      · rw [if_neg (not_or.mpr ⟨hr, he⟩)]
        have hrt : fs.isReadableFile f = true := by
          revert hr
          cases fs.isReadableFile f <;> simp
        simp only [mem_pyAdd, List.mem_cons]
        constructor
        · rintro ((hq | rfl) | ⟨hql, hqr, hqe⟩)
          · exact Or.inl hq
          · exact Or.inr ⟨Or.inl rfl, hrt, he⟩
          · exact Or.inr ⟨Or.inr hql, hqr, hqe⟩
        · rintro (hq | ⟨rfl | hql, hqr, hqe⟩)
          · exact Or.inl (Or.inl hq)
          · exact Or.inl (Or.inr rfl)
          · exact Or.inr ⟨hql, hqr, hqe⟩


theorem mem_paths_info_step (fs : FS) (exclude : List Str) (info : PathsInfo)
    (path q : Str) :
    q ∈ (paths_info_step fs exclude info path).files ↔
      q ∈ info.files ∨
      (fs.isReadablePath path = true ∧ fs.isFile path = true ∧ q = path) ∨
      (fs.isReadablePath path = true ∧ fs.isFile path = false ∧ q ∈ fs.dirFiles path ∧
        fs.isReadableFile q = true ∧ q ∉ exclude) := by
  unfold paths_info_step
  by_cases hr : fs.isReadablePath path = false
  · have : ¬ fs.isReadablePath path = true := by rw [hr]; simp
    simp [hr, this]
  · have hrt : fs.isReadablePath path = true := by
      revert hr
      cases fs.isReadablePath path <;> simp
    rw [if_neg (by rw [hrt]; simp)]
    by_cases hf : fs.isFile path
    · rw [if_pos hf]
      simp only [mem_pyAdd]
      simp [hf, hrt]
    · have hff : fs.isFile path = false := by
        revert hf
        cases fs.isFile path <;> simp
      rw [if_neg hf, mem_dir_fold]
      simp [hrt, hff]


theorem mem_paths_info (fs : FS) (roots : List Str) (exclude : List Str) (q : Str) :
    q ∈ (paths_info fs roots exclude).files ↔
      ∃ r ∈ roots, fs.isReadablePath r = true ∧
        ((fs.isFile r = true ∧ q = r) ∨
         (fs.isFile r = false ∧ q ∈ fs.dirFiles r ∧ fs.isReadableFile q = true ∧
           q ∉ exclude)) := by
  have gen : ∀ (l : List Str) (info : PathsInfo),
      q ∈ (l.foldl (paths_info_step fs exclude) info).files ↔
        q ∈ info.files ∨ ∃ r ∈ l, fs.isReadablePath r = true ∧
          ((fs.isFile r = true ∧ q = r) ∨
           (fs.isFile r = false ∧ q ∈ fs.dirFiles r ∧ fs.isReadableFile q = true ∧
             q ∉ exclude)) := by
    intro l
    induction l with
    | nil => simp
    | cons r l ih =>
      intro info
      rw [List.foldl_cons, ih, mem_paths_info_step]
      constructor
      · rintro ((hq | ⟨h1, h2, hq⟩ | ⟨h1, h2, h3, h4, h5⟩) | ⟨r', hr', hrest⟩)
        · exact Or.inl hq
        · exact Or.inr ⟨r, List.mem_cons_self r l, h1, Or.inl ⟨h2, hq⟩⟩
        · exact Or.inr ⟨r, List.mem_cons_self r l, h1, Or.inr ⟨h2, h3, h4, h5⟩⟩
        · exact Or.inr ⟨r', List.mem_cons_of_mem r hr', hrest⟩
      · rintro (hq | ⟨r', hr', hrest⟩)
        · exact Or.inl (Or.inl hq)
        · rcases List.mem_cons.mp hr' with rfl | hr''
          · rcases hrest with ⟨h1, ⟨h2, hq⟩ | ⟨h2, h3, h4, h5⟩⟩
            · exact Or.inl (Or.inr (Or.inl ⟨h1, h2, hq⟩))
            · exact Or.inl (Or.inr (Or.inr ⟨h1, h2, h3, h4, h5⟩))
          · exact Or.inr ⟨r', hr'', hrest⟩
  rw [paths_info, gen]
  simp


theorem mem_previously_hashed (lines : List Str) (x : Str) :
    x ∈ previously_hashed_files lines ↔
      ∃ l ∈ lines, matchManifestHashLine l = true ∧ pyStrip (l.drop 16) = x := by
  have gen : ∀ (ls : List Str) (s : List Str),
      x ∈ (ls.foldl (fun s line =>
          if matchManifestHashLine line then pyAdd s (pyStrip (line.drop 16)) else s) s) ↔
        x ∈ s ∨ ∃ l ∈ ls, matchManifestHashLine l = true ∧ pyStrip (l.drop 16) = x := by
    intro ls
    induction ls with
    | nil => simp
    | cons l ls ih =>
      intro s
      rw [List.foldl_cons, ih]
      by_cases hm : matchManifestHashLine l
      · simp only [hm, if_true, mem_pyAdd]
        constructor
        · rintro ((hx | rfl) | ⟨l', hl', hm', hs'⟩)
          · exact Or.inl hx
          · exact Or.inr ⟨l, List.mem_cons_self l ls, hm, rfl⟩
          · exact Or.inr ⟨l', List.mem_cons_of_mem l hl', hm', hs'⟩
        · rintro (hx | ⟨l', hl', hm', hs'⟩)
          · exact Or.inl (Or.inl hx)
          · rcases List.mem_cons.mp hl' with rfl | hl''
            · exact Or.inl (Or.inr hs'.symm)
            · exact Or.inr ⟨l', hl'', hm', hs'⟩
      · simp only [hm, if_false]
        constructor
        · rintro (hx | ⟨l', hl', hm', hs'⟩)
          · exact Or.inl hx
          · exact Or.inr ⟨l', List.mem_cons_of_mem l hl', hm', hs'⟩
        · rintro (hx | ⟨l', hl', hm', hs'⟩)
          · exact Or.inl hx
          · rcases List.mem_cons.mp hl' with rfl | hl''
            · exact absurd hm' (by simpa using hm)
            · exact Or.inr ⟨l', hl'', hm', hs'⟩
  rw [previously_hashed_files, gen]
  simp


theorem pyStrip_space_cons (l : Str) : pyStrip (' ' :: l) = pyStrip l := by
  unfold pyStrip
  rw [List.dropWhile_cons]
  simp [isPySpace]


theorem matchManifestHashLine_written {x a : Str} (hlen : x.length = 16)
    (hhex : x.all isHexLower = true) :
    matchManifestHashLine (x ++ ' ' :: ' ' :: a) = true := by
  unfold matchManifestHashLine
  rw [List.take_left' hlen, List.drop_left' hlen]
  simp [hlen, hhex]


theorem written_payload {x a : Str} (hlen : x.length = 16) (hstrip : pyStrip a = a) :
    pyStrip ((x ++ ' ' :: ' ' :: a).drop 16) = a := by
  rw [List.drop_left' hlen, pyStrip_space_cons, pyStrip_space_cons, hstrip]


/-- Claim C7 counterexample: over the unchanged root set `["f"]` (a relative
name for the file whose absolute path is "/c/f"), the second `file_output`
run appends the same record again: the manifest stores absolute paths, but
the membership tests of the second run compare against the discovered
relative path. -/
theorem file_output_second_run_appends :
    file_output fsRel [['f']] (file_output fsRel [['f']] []) ≠
      file_output fsRel [['f']] [] := by
  decide


/-- Claim C7 (amended): running `file_output` twice over the same unchanged
set of root paths appends no new lines on the second run — every recorded
path is skipped, and new records come only from paths absent from the loaded
hashed set — provided each discovered path equals its own absolute form and
carries no surrounding whitespace, and the hash primitive renders digests as
16 lowercase hex characters.  (Without the absolute-form proviso the property
fails: see the counterexample with a relative root.) -/
theorem file_output_idempotent (fs : FS) (roots : List Str) (m : List Str)
    (habs : ∀ f ∈ (paths_info fs roots (previously_hashed_files m)).files,
      fs.abspath f = f)
    (hstrip : ∀ f ∈ (paths_info fs roots (previously_hashed_files m)).files,
      pyStrip f = f)
    (hhash : ∀ f ∈ (paths_info fs roots (previously_hashed_files m)).files,
      (fs.xxh f).length = 16 ∧ (fs.xxh f).all isHexLower = true) :
    file_output fs roots (file_output fs roots m) = file_output fs roots m := by
  have hsub : ∀ x ∈ previously_hashed_files m,
      x ∈ previously_hashed_files (file_output fs roots m) := by
    intro x hx
    rw [mem_previously_hashed] at hx ⊢
    obtain ⟨l, hl, hml, hpl⟩ := hx
    exact ⟨l, by rw [file_output]; exact List.mem_append_left _ hl, hml, hpl⟩
  have hwritten : ∀ f ∈ (paths_info fs roots (previously_hashed_files m)).files,
      f ∉ previously_hashed_files m →
        f ∈ previously_hashed_files (file_output fs roots m) := by
    intro f hf hnf
    have hline : fs.xxh f ++ ' ' :: ' ' :: fs.abspath f ∈ file_output fs roots m := by
      rw [file_output]
      refine List.mem_append_right _ ?_
      rw [List.mem_filterMap]
      exact ⟨f, hf, by rw [if_neg hnf]⟩
    rw [mem_previously_hashed]
    refine ⟨fs.xxh f ++ ' ' :: ' ' :: fs.abspath f, hline, ?_, ?_⟩
    · exact matchManifestHashLine_written (hhash f hf).1 (hhash f hf).2
    · rw [habs f hf]
      exact written_payload (hhash f hf).1 (hstrip f hf)
  have hall : ∀ f ∈ (paths_info fs roots
      (previously_hashed_files (file_output fs roots m))).files,
      f ∈ previously_hashed_files (file_output fs roots m) := by
    intro f hf
    rw [mem_paths_info] at hf
    obtain ⟨r, hr, hread, hcase⟩ := hf
    rcases hcase with ⟨hfile, hq⟩ | ⟨hdir, hmem, hrf, hnotH1⟩
    · subst hq
      have hf1 : f ∈ (paths_info fs roots (previously_hashed_files m)).files := by
        rw [mem_paths_info]
        exact ⟨f, hr, hread, Or.inl ⟨hfile, rfl⟩⟩
      by_cases h0 : f ∈ previously_hashed_files m
      · exact hsub f h0
      · exact hwritten f hf1 h0
    · by_cases h0 : f ∈ previously_hashed_files m
      · exact (hnotH1 (hsub f h0)).elim
      · have hf1 : f ∈ (paths_info fs roots (previously_hashed_files m)).files := by
          rw [mem_paths_info]
          exact ⟨r, hr, hread, Or.inr ⟨hdir, hmem, hrf, h0⟩⟩
        exact (hnotH1 (hwritten f hf1 h0)).elim
  conv_lhs => rw [file_output]
  have hempty : (paths_info fs roots
      (previously_hashed_files (file_output fs roots m))).files.filterMap
      (fun f => if f ∈ previously_hashed_files (file_output fs roots m) then none
                else some (fs.xxh f ++ ' ' :: ' ' :: fs.abspath f)) = [] := by
    rw [List.filterMap_eq_nil_iff]
    intro f hf
    rw [if_pos (hall f hf)]
  rw [hempty, List.append_nil]


/-- Witness for the amended claim C7: over the absolute root "/f" the second
run appends nothing. -/
theorem file_output_idempotent_witness :
    (∀ f ∈ (paths_info fsAbs [['/', 'f']] (previously_hashed_files [])).files,
       fsAbs.abspath f = f) ∧
    (∀ f ∈ (paths_info fsAbs [['/', 'f']] (previously_hashed_files [])).files,
       pyStrip f = f) ∧
    (∀ f ∈ (paths_info fsAbs [['/', 'f']] (previously_hashed_files [])).files,
       (fsAbs.xxh f).length = 16 ∧ (fsAbs.xxh f).all isHexLower = true) ∧
    file_output fsAbs [['/', 'f']] (file_output fsAbs [['/', 'f']] []) =
      file_output fsAbs [['/', 'f']] [] := by
  refine ⟨by decide, by decide, by decide, ?_⟩
  exact file_output_idempotent fsAbs [['/', 'f']] [] (by decide) (by decide) (by decide)


/-- Claim C10: in `paths_info` the `exclude_set` filter applies only to files
discovered by directory traversal — a root path that is itself a readable
regular file is always added to the result set and counted in `file_count`
and `total_bytes`, even when that exact path is a member of `exclude_set`
(the exclude set is arbitrary in both statements, so it may contain the
root). -/
theorem paths_info_file_root_bypasses_exclude (fs : FS) (exclude : List Str)
    (info : PathsInfo) (r : Str) (hread : fs.isReadablePath r = true)
    (hfile : fs.isFile r = true) :
    paths_info_step fs exclude info r =
      { files := pyAdd info.files r,
        file_count := info.file_count + 1,
        total_bytes := info.total_bytes + fs.size r } ∧
    ∀ roots : List Str, r ∈ roots → r ∈ (paths_info fs roots exclude).files := by
  constructor
  · unfold paths_info_step
    rw [if_neg (by rw [hread]; simp), if_pos hfile]
  · intro roots hr
    rw [mem_paths_info]
    exact ⟨r, hr, hread, Or.inl ⟨hfile, rfl⟩⟩


/-- Witness for claim C10: the file root "/f" is added and counted even with
`exclude_set = {"/f"}`. -/
theorem paths_info_file_root_bypasses_exclude_witness :
    fsAbs.isReadablePath ['/', 'f'] = true ∧ fsAbs.isFile ['/', 'f'] = true ∧
    paths_info_step fsAbs [['/', 'f']] ⟨[], 0, 0⟩ ['/', 'f'] =
      { files := pyAdd ([] : List Str) ['/', 'f'],
        file_count := 0 + 1,
        total_bytes := 0 + fsAbs.size ['/', 'f'] } ∧
    ['/', 'f'] ∈ (paths_info fsAbs [['/', 'f']] [['/', 'f']]).files := by
  have h := paths_info_file_root_bypasses_exclude fsAbs [['/', 'f']] ⟨[], 0, 0⟩ ['/', 'f']
    (by decide) (by decide)
  exact ⟨by decide, by decide, h.1, h.2 [['/', 'f']] (by decide)⟩


theorem feedChunks_acc (cs : List (List Nat)) :
    ∀ a : List Nat, cs.foldl (fun s c => s ++ c) a = a ++ feedChunks cs := by
  induction cs with
  | nil => intro a; simp [feedChunks]
  | cons c cs ih =>
    intro a
    rw [List.foldl_cons, ih]
    have hfc : feedChunks (c :: cs) = c ++ feedChunks cs := by
      show List.foldl (fun s c => s ++ c) [] (c :: cs) = _
      rw [List.foldl_cons, ih]
      simp
    rw [hfc, List.append_assoc]


theorem feed_readChunks (content : List Nat) :
    feedChunks (readChunks content) = content := by
  have H : ∀ (n : Nat) (c : List Nat), c.length ≤ n →
      feedChunks (readChunks c) = c := by
    intro n
    induction n with
    | zero =>
      intro c hc
      have hnil : c = [] := List.eq_nil_of_length_eq_zero (Nat.le_zero.mp hc)
      subst hnil
      unfold readChunks
      simp [feedChunks]
    | succ n ih =>
      intro c hc
      by_cases h : c = []
      · subst h
        unfold readChunks
        simp [feedChunks]
      · unfold readChunks
        rw [dif_neg h]
        unfold feedChunks
        rw [List.foldl_cons, feedChunks_acc]
        have hdrop : (c.drop 1024).length ≤ n := by
          rw [List.length_drop]
          have hpos : 0 < c.length := List.length_pos.mpr h
          omega
        rw [ih _ hdrop]
        simp
  exact H content.length content (Nat.le_refl _)


theorem readChunks_shape (content : List Nat) :
    ∀ ch ∈ readChunks content, ch ≠ [] ∧ ch.length ≤ 1024 := by
  have H : ∀ (n : Nat) (c : List Nat), c.length ≤ n →
      ∀ ch ∈ readChunks c, ch ≠ [] ∧ ch.length ≤ 1024 := by
    intro n
    induction n with
    | zero =>
      intro c hc ch hch
      have hnil : c = [] := List.eq_nil_of_length_eq_zero (Nat.le_zero.mp hc)
      subst hnil
      unfold readChunks at hch
      simp at hch
    | succ n ih =>
      intro c hc ch hch
      by_cases h : c = []
      · subst h
        unfold readChunks at hch
        simp at hch
      · unfold readChunks at hch
        rw [dif_neg h] at hch
        rcases List.mem_cons.mp hch with rfl | hch'
        · constructor
          · intro htake
            rw [List.take_eq_nil_iff] at htake
            rcases htake with h1024 | hnil
            · norm_num at h1024
            · exact h hnil
          · exact List.length_take_le 1024 c
        · have hdrop : (c.drop 1024).length ≤ n := by
            rw [List.length_drop]
            have hpos : 0 < c.length := List.length_pos.mpr h
            omega
          exact ih (c.drop 1024) hdrop ch hch'
  exact H content.length content (Nat.le_refl _)


theorem hexChar_isHexLower : ∀ d < 16, isHexLower (hexChar d) = true := by decide


theorem toHex16_length (n : Nat) : (toHex16 n).length = 16 := by
  simp [toHex16]


theorem toHex16_hex (n : Nat) : (toHex16 n).all isHexLower = true := by
  rw [List.all_eq_true]
  intro c hc
  rw [toHex16, List.mem_map] at hc
  obtain ⟨i, hi, rfl⟩ := hc
  exact hexChar_isHexLower _ (Nat.mod_lt _ (by norm_num))


/-- Claim C8: the chunked computation (fixed 1024-byte reads folded into the
streaming state, then finalized) yields the same digest as hashing the whole
byte content in one step — the digest depends only on the byte content, not
on chunk boundaries — and renders as 16 lowercase hex characters.  The read
loop's chunks concatenate back to the content and are the non-empty ≤1024-byte
slices in order (the `iter(..., b"")` sentinel semantics). -/
theorem xxh_streaming_equivalence (xxh3val : List Nat → Nat) (content : List Nat) :
    xxh_chunked xxh3val content = xxh_whole xxh3val content ∧
    feedChunks (readChunks content) = content ∧
    (∀ ch ∈ readChunks content, ch ≠ [] ∧ ch.length ≤ 1024) ∧
    (xxh_chunked xxh3val content).length = 16 ∧
    (xxh_chunked xxh3val content).all isHexLower = true := by
  refine ⟨?_, feed_readChunks content, readChunks_shape content, ?_, ?_⟩
  · rw [xxh_chunked, xxh_whole, feed_readChunks]
  · rw [xxh_chunked, hexdigest]
    exact toHex16_length _
  · rw [xxh_chunked, hexdigest]
    exact toHex16_hex _


/-- Claim C9: when the path fails the `is_readable_file` re-check at call
time (not a regular, readable, non-symlinked file), `fu.xxh` returns the
empty string — an error result distinct from every valid digest, since every
digest has 16 characters — and it does so without touching the content;
otherwise it returns the 16-hex-character digest of the content. -/
theorem fu_xxh_unreadable_error (isReadable : Str → Bool) (fileContent : Str → List Nat)
    (xxh3val : List Nat → Nat) (file_name : Str)
    (hbad : isReadable file_name = false) :
    fu_xxh isReadable fileContent xxh3val file_name = [] ∧
    (∀ d : Str, d.length = 16 → fu_xxh isReadable fileContent xxh3val file_name ≠ d) := by
  have hres : fu_xxh isReadable fileContent xxh3val file_name = [] := by
    rw [fu_xxh, if_neg]
    rw [hbad]
    simp
  refine ⟨hres, ?_⟩
  intro d hd hcontra
  rw [hres] at hcontra
  rw [← hcontra] at hd
  simp at hd


/-- Witness for claim C9 on a concrete unreadable path: the result is the
empty string and differs from a concrete valid digest. -/
theorem fu_xxh_unreadable_error_witness :
    ((fun _ : Str => false) ['p'] = false) ∧
    fu_xxh (fun _ => false) (fun _ => []) (fun _ => 0) ['p'] = [] ∧
    hexDigestEx.length = 16 ∧
    fu_xxh (fun _ => false) (fun _ => []) (fun _ => 0) ['p'] ≠ hexDigestEx := by
  have h := fu_xxh_unreadable_error (fun _ => false) (fun _ => []) (fun _ => 0) ['p'] rfl
  exact ⟨rfl, h.1, by decide, h.2 hexDigestEx (by decide)⟩

